import Mathlib

/-!
# Verification of the playfast APK static-analysis core

A shallow embedding, in Lean 4, of the parts of the `playfast` Rust
crate that the specification claims talk about:

* the DEX header parser (`src/dex/parser.rs`),
* the type-descriptor to Java-name conversion (`src/dex/parser.rs`),
* the Dalvik instruction decoder (`src/dex/instruction.rs`),
* the expression builder (`src/dex/expression_builder.rs`) over an
  abstract method resolver (`src/dex/method_resolver.rs`),
* the manifest intent-filter deeplink test (`src/apk/manifest.rs`),
* the call-graph bounded BFS (`src/dex/call_graph.rs`), and
* the flow analyzer (`src/dex/data_flow_analyzer.rs`).

Rust strings are modelled by Lean `String`; `String::contains`
(substring search) is modelled by an explicit recursive search over the
character list.  Byte buffers are `List Nat` (each entry one byte), and
16-bit code-unit arrays are `List Nat` (each entry one `u16`).
-/

namespace Playfast

/-! ## String helpers: substring containment, as in Rust `str::contains` -/

/-- `isPrefList p l` holds when `p` is a leading segment of `l`. -/
def isPrefList : List Char → List Char → Bool
  | [], _ => true
  | _ :: _, [] => false
  | a :: p, b :: l => a == b && isPrefList p l

/-- `occursIn needle hay`: `needle` occurs contiguously inside `hay`. -/
def occursIn (needle : List Char) : List Char → Bool
  | [] => isPrefList needle []
  | c :: t => isPrefList needle (c :: t) || occursIn needle t

/-- Model of Rust `s.contains(t)` for strings (substring search). -/
def strContains (s t : String) : Bool :=
  occursIn t.toList s.toList

/-- Model of Rust `s.ends_with(t)`. -/
def strEnds (s t : String) : Bool :=
  isPrefList t.toList.reverse s.toList.reverse

/-! ## Manifest intent filters (`src/apk/manifest.rs`) -/

/-- `IntentFilterData` from `src/apk/manifest.rs`. -/
structure IntentFilterData where
  scheme : Option String
  host : Option String
  path : Option String
  path_prefix : Option String
  path_pattern : Option String
deriving DecidableEq, Repr

/-- `ActivityIntentFilter` from `src/apk/manifest.rs`. -/
structure ActivityIntentFilter where
  activity : String
  actions : List String
  categories : List String
  data : List IntentFilterData
deriving DecidableEq, Repr

/-- `ActivityIntentFilter::is_deeplink` from `src/apk/manifest.rs`:
VIEW action, BROWSABLE or DEFAULT category, and non-empty data. -/
def ActivityIntentFilter.is_deeplink (f : ActivityIntentFilter) : Bool :=
  let has_view_action := f.actions.any (fun a => strContains a "VIEW")
  let has_browsable := f.categories.any
    (fun c => strContains c "BROWSABLE" || strContains c "DEFAULT")
  has_view_action && has_browsable && !f.data.isEmpty

/-! ## Type descriptors (`DexParser::descriptor_to_java_type`) -/

/-- Count of leading `'['` characters of a descriptor. -/
def arrayDepth : List Char → Nat
  | '[' :: rest => arrayDepth rest + 1
  | _ => 0

/-- Rust `"[]".repeat n`, as a character list. -/
def arrSuffix : Nat → List Char
  | 0 => []
  | n + 1 => arrSuffix n ++ ['[', ']']

/-- Rust `s.trim_end_matches(';')`: drop every trailing `';'`. -/
def trimEndSemis (l : List Char) : List Char :=
  (l.reverse.dropWhile (fun c => c == ';')).reverse

/-- `DexParser::descriptor_to_java_type` from `src/dex/parser.rs`,
over the descriptor's character list. -/
def descriptorToJavaType (descriptor : List Char) : List Char :=
  match h : descriptor with
  | [] => "void".toList
  | first :: _ =>
    if first = 'V' then "void".toList
    else if first = 'Z' then "boolean".toList
    else if first = 'B' then "byte".toList
    else if first = 'S' then "short".toList
    else if first = 'C' then "char".toList
    else if first = 'I' then "int".toList
    else if first = 'J' then "long".toList
    else if first = 'F' then "float".toList
    else if first = 'D' then "double".toList
    else if first = 'L' then
      (trimEndSemis (descriptor.drop 1)).map
        (fun c => if c = '/' then '.' else c)
    else if first = '[' then
      let d := arrayDepth descriptor
      descriptorToJavaType (descriptor.drop d) ++ arrSuffix d
    else
      descriptor
termination_by descriptor.length
decreasing_by
  simp_all
  have hd : 0 < arrayDepth descriptor := by
    subst h
    simp [arrayDepth]
  subst h
  simp [List.length_drop]
  omega

/-- String-level wrapper of the descriptor conversion. -/
def descriptorToJavaName (d : String) : String :=
  String.mk (descriptorToJavaType d.toList)

/-- The depth count of a list headed by a non-bracket character is zero. -/
theorem arrayDepth_eq_zero {c : Char} {t : List Char} (h : c ≠ '[') :
    arrayDepth (c :: t) = 0 := by
  unfold arrayDepth
  split
  · simp_all
  · rfl

/-- Any conversion result ends in `"[]"` repeated `arrayDepth` times. -/
theorem descriptorToJavaType_ends (l : List Char) :
    ∃ p, descriptorToJavaType l = p ++ arrSuffix (arrayDepth l) := by
  cases l with
  | nil => exact ⟨descriptorToJavaType [], by simp [arrayDepth, arrSuffix]⟩
  | cons c t =>
    by_cases hc : c = '['
    · subst hc
      rw [descriptorToJavaType]
      simp
    · exact ⟨descriptorToJavaType (c :: t), by
        rw [arrayDepth_eq_zero hc]
        simp [arrSuffix]⟩

/-! ## DEX header parsing (`DexParser::parse_header`, `src/dex/parser.rs`) -/

/-- Error type from `src/dex/error.rs` (the variants used by header parsing). -/
inductive DexError where
  | invalidDex (msg : String)
  | parseError (msg : String)
deriving DecidableEq, Repr

/-- Read a little-endian `u32` from a byte buffer at a given offset,
as the cursor reads of `parse_header` do (all within the 112-byte
header, whose presence is checked first). -/
def readU32LE (data : List Nat) (off : Nat) : Nat :=
  data.getD off 0 + 256 * data.getD (off + 1) 0 +
    65536 * data.getD (off + 2) 0 + 16777216 * data.getD (off + 3) 0

/-- The DEX magic `dex\n` (`src/dex/constants.rs`). -/
def dexMagicBytes : List Nat := [0x64, 0x65, 0x78, 0x0a]

/-- `structure::ENDIAN_CONSTANT` from `src/dex/constants.rs`. -/
def ENDIAN_CONSTANT : Nat := 0x12345678

/-- `DexHeader` from `src/dex/parser.rs`. -/
structure DexHeader where
  magic : List Nat
  version : List Nat
  checksum : Nat
  signature : List Nat
  file_size : Nat
  header_size : Nat
  endian_tag : Nat
  link_size : Nat
  link_off : Nat
  map_off : Nat
  string_ids_size : Nat
  string_ids_off : Nat
  type_ids_size : Nat
  type_ids_off : Nat
  proto_ids_size : Nat
  proto_ids_off : Nat
  field_ids_size : Nat
  field_ids_off : Nat
  class_defs_size : Nat
  class_defs_off : Nat
  method_ids_size : Nat
  method_ids_off : Nat
  data_size : Nat
  data_off : Nat
deriving Repr

/-- The header record `parse_header` assembles once all checks passed:
the sequential little-endian cursor reads of `src/dex/parser.rs`
lines 56-161, laid out at their byte offsets. -/
def parsedHeader (data : List Nat) : DexHeader :=
  { magic := data.take 4
    version := (data.drop 4).take 4
    checksum := readU32LE data 8
    signature := (data.drop 12).take 20
    file_size := readU32LE data 32
    header_size := readU32LE data 36
    endian_tag := readU32LE data 40
    link_size := readU32LE data 44
    link_off := readU32LE data 48
    map_off := readU32LE data 52
    string_ids_size := readU32LE data 56
    string_ids_off := readU32LE data 60
    type_ids_size := readU32LE data 64
    type_ids_off := readU32LE data 68
    proto_ids_size := readU32LE data 72
    proto_ids_off := readU32LE data 76
    field_ids_size := readU32LE data 80
    field_ids_off := readU32LE data 84
    method_ids_size := readU32LE data 88
    method_ids_off := readU32LE data 92
    class_defs_size := readU32LE data 96
    class_defs_off := readU32LE data 100
    data_size := readU32LE data 104
    data_off := readU32LE data 108 }

/-- `DexParser::parse_header` from `src/dex/parser.rs`: checks the
buffer size, the magic, and the header size; reads everything else
(including the endian tag) without validation.  Unsupported versions
only produce a warning (`eprintln!`), not an error. -/
def parse_header (data : List Nat) : Except DexError DexHeader :=
  if data.length < 112 then
    .error (.invalidDex "File too small")
  else if data.take 4 ≠ dexMagicBytes then
    .error (.invalidDex "Invalid magic")
  else if readU32LE data 36 ≠ 112 then
    .error (.invalidDex "Invalid header size")
  else
    .ok (parsedHeader data)

/-- `true` exactly on `Except.ok` results. -/
def isOkB {ε α : Type} : Except ε α → Bool
  | .ok _ => true
  | .error _ => false

/-- A 112-byte buffer with valid magic `dex\n`, version `035\0`,
header size 112 at offset 36, and an endian tag of 0 at offset 40. -/
def c1buf : List Nat :=
  [0x64, 0x65, 0x78, 0x0a, 0x30, 0x33, 0x35, 0x00] ++
    List.replicate 28 0 ++ [0x70, 0, 0, 0] ++ List.replicate 72 0

/-- C1, counterexample: this buffer's endian-tag field (bytes 40..44,
little-endian) is 0, which differs from the canonical constant
`0x12345678`, yet `parse_header` succeeds instead of returning a parse
error. -/
theorem c1_endian_counterexample :
    readU32LE c1buf 40 = 0 ∧ (0 : Nat) ≠ ENDIAN_CONSTANT ∧
      isOkB (parse_header c1buf) = true := by
  decide

/-- C1 (amended): header parsing checks the buffer length, the magic,
and the header-size field; the endian tag (bytes 40..44, little-endian)
is read into the header but never compared with the canonical constant,
so parsing succeeds whatever its value is. -/
theorem c1_endian_not_validated (data : List Nat) (h1 : 112 ≤ data.length)
    (h2 : data.take 4 = dexMagicBytes) (h3 : readU32LE data 36 = 112) :
    parse_header data = .ok (parsedHeader data) ∧
      (parsedHeader data).endian_tag = readU32LE data 40 := by
  refine ⟨?_, rfl⟩
  unfold parse_header
  rw [if_neg (by omega), if_neg (by simp [h2]), if_neg (by simp [h3])]

/-- Witness for C1 (amended) at the concrete buffer `c1buf`. -/
theorem c1_endian_not_validated_witness :
    parse_header c1buf = .ok (parsedHeader c1buf) ∧
      (parsedHeader c1buf).endian_tag = readU32LE c1buf 40 :=
  c1_endian_not_validated c1buf (by decide) (by decide) (by decide)

/-- C8: an intent filter is a deeplink handler iff some action contains
`"VIEW"`, some category contains `"BROWSABLE"` or contains `"DEFAULT"`,
and the data list is non-empty. -/
theorem c8_is_deeplink_iff (f : ActivityIntentFilter) :
    f.is_deeplink = true ↔
      ((∃ a ∈ f.actions, strContains a "VIEW" = true) ∧
        (∃ c ∈ f.categories,
          strContains c "BROWSABLE" = true ∨ strContains c "DEFAULT" = true) ∧
        f.data ≠ []) := by
  simp [ActivityIntentFilter.is_deeplink, List.any_eq_true,
    List.isEmpty_iff, and_assoc]

/-- C9: the descriptor-to-Java-name conversion is a function (hence
deterministic), maps the five concrete example descriptors as listed,
and in general the result ends with `"[]"` repeated once per leading
`'['` of the descriptor. -/
theorem c9_descriptor_to_java :
    descriptorToJavaName "V" = "void" ∧
    descriptorToJavaName "I" = "int" ∧
    descriptorToJavaName "Ljava/lang/String;" = "java.lang.String" ∧
    descriptorToJavaName "[I" = "int[]" ∧
    descriptorToJavaName "[[Ljava/lang/String;" = "java.lang.String[][]" ∧
    ∀ d : String, ∃ p : List Char,
      (descriptorToJavaName d).toList = p ++ arrSuffix (arrayDepth d.toList) := by
  refine ⟨?_, ?_, ?_, ?_, ?_, ?_⟩
  · simp [descriptorToJavaName]
    rw [descriptorToJavaType]
    simp
  · simp [descriptorToJavaName]
    rw [descriptorToJavaType]
    simp
  · simp [descriptorToJavaName]
    rw [descriptorToJavaType]
    simp [trimEndSemis]
  · simp [descriptorToJavaName]
    rw [descriptorToJavaType]
    norm_num [arrayDepth, arrSuffix]
    rw [descriptorToJavaType]
    simp
  · simp [descriptorToJavaName]
    rw [descriptorToJavaType]
    norm_num [arrayDepth, arrSuffix]
    rw [descriptorToJavaType]
    simp [trimEndSemis]
  · intro d
    exact descriptorToJavaType_ends d.toList

/-! ## Dalvik instruction decoding (`src/dex/instruction.rs`) -/

/-- The decoded instruction subset (`enum Instruction`). -/
inductive Instruction where
  | const4 (dest : Nat) (value : Int)
  | const16 (dest : Nat) (value : Int)
  | const (dest : Nat) (value : Int)
  | constString (dest : Nat) (string_idx : Nat)
  | invokeVirtual (args : List Nat) (method_idx : Nat)
  | invokeSuper (args : List Nat) (method_idx : Nat)
  | invokeDirect (args : List Nat) (method_idx : Nat)
  | invokeStatic (args : List Nat) (method_idx : Nat)
  | invokeInterface (args : List Nat) (method_idx : Nat)
  | invokeVirtualRange (first_arg : Nat) (arg_count : Nat) (method_idx : Nat)
  | invokeStaticRange (first_arg : Nat) (arg_count : Nat) (method_idx : Nat)
  | unknown (opcode : Nat) (data : List Nat)
deriving DecidableEq, Repr

/-- 4-bit sign extension: Rust's `(value_bits | 0xF0u8) as i8` when bit 3
is set, plain cast otherwise. -/
def signExt4 (v : Nat) : Int :=
  if v &&& 8 ≠ 0 then (v : Int) - 16 else v

/-- Rust `bytecode[i+1] as i16` reinterpretation of a `u16` word. -/
def asI16 (w : Nat) : Int :=
  if 32768 ≤ w then (w : Int) - 65536 else w

/-- Rust `((high << 16) | low) as i32` reinterpretation of a `u32`. -/
def asI32 (w : Nat) : Int :=
  if 2147483648 ≤ w then (w : Int) - 4294967296 else w

/-- First follow-on word, or 0 when it is missing
(`if i + 1 < bytecode.len() { bytecode[i+1] } else { 0 }`). -/
def word1 : List Nat → Nat
  | v :: _ => v
  | _ => 0

/-- Second follow-on word, or 0 when it is missing
(`if i + 2 < bytecode.len() { bytecode[i+2] } else { 0 }`). -/
def word2 : List Nat → Nat
  | _ :: v :: _ => v
  | _ => 0

/-- Argument registers of a non-range invoke: nibble slots as in the
`for j in 0..arg_count` loop of `InstructionDecoder::decode`. -/
def invokeArgs (w argsWord argCount : Nat) : List Nat :=
  (List.range argCount).map (fun j =>
    if j = 0 then (w >>> 8) &&& 0xF
    else if j ≤ 4 then (argsWord >>> ((j - 1) * 4)) &&& 0xF
    else 0)

/-- Words the decode cursor advances for a first word with this opcode
byte: the `i += 1/2/3` of each branch of `InstructionDecoder::decode`. -/
def stepLen (op : Nat) : Nat :=
  if op = 0x12 then 1
  else if op = 0x13 then 2
  else if op = 0x14 then 3
  else if op = 0x1a then 2
  else if op = 0x6e then 3
  else if op = 0x6f then 3
  else if op = 0x70 then 3
  else if op = 0x71 then 3
  else if op = 0x72 then 3
  else if op = 0x74 then 3
  else if op = 0x77 then 3
  else 1

/-- The instruction built from a first word `w` whose follow-on words
are `rest` — the body of one iteration of `InstructionDecoder::decode`
(`src/dex/instruction.rs` lines 609-857).  Follow-on words that lie
past the end of the array are read as 0, exactly as the
`if i + k < bytecode.len()` guards there do. -/
def decodeOne (w : Nat) (rest : List Nat) : Instruction :=
  let op := w % 256
  if op = 0x12 then
    .const4 ((w >>> 8) &&& 0xF) (signExt4 ((w >>> 12) &&& 0xF))
  else if op = 0x13 then
    .const16 ((w >>> 8) % 256) (asI16 (word1 rest))
  else if op = 0x14 then
    .const ((w >>> 8) % 256)
      (match rest with
       | low :: high :: _ => asI32 ((high <<< 16) ||| low)
       | _ => 0)
  else if op = 0x1a then
    .constString ((w >>> 8) % 256) (word1 rest)
  else if op = 0x6e then
    .invokeVirtual (invokeArgs w (word2 rest) ((w >>> 12) &&& 0xF)) (word1 rest)
  else if op = 0x6f then
    .invokeSuper (invokeArgs w (word2 rest) ((w >>> 12) &&& 0xF)) (word1 rest)
  else if op = 0x70 then
    .invokeDirect (invokeArgs w (word2 rest) ((w >>> 12) &&& 0xF)) (word1 rest)
  else if op = 0x71 then
    .invokeStatic (invokeArgs w (word2 rest) ((w >>> 12) &&& 0xF)) (word1 rest)
  else if op = 0x72 then
    .invokeInterface (invokeArgs w (word2 rest) ((w >>> 12) &&& 0xF)) (word1 rest)
  else if op = 0x74 then
    .invokeVirtualRange (word2 rest) ((w >>> 8) % 256) (word1 rest)
  else if op = 0x77 then
    .invokeStaticRange (word2 rest) ((w >>> 8) % 256) (word1 rest)
  else
    .unknown op [w]

/-- `InstructionDecoder::decode` from `src/dex/instruction.rs`: walks
the 16-bit words, emitting one instruction per opcode and advancing the
cursor by the instruction's full word count (`i += 1/2/3`), even when
the follow-on words were missing. -/
def decode : List Nat → List Instruction
  | [] => []
  | w :: rest =>
    decodeOne w rest :: decode (rest.drop (stepLen (w % 256) - 1))
termination_by l => l.length
decreasing_by
  simp [List.length_drop]
  all_goals omega

/-- Word count each decoded instruction stands for (the amount the
decode cursor advances). -/
def wordLen : Instruction → Nat
  | .const4 _ _ => 1
  | .const16 _ _ => 2
  | .const _ _ => 3
  | .constString _ _ => 2
  | .invokeVirtual _ _ => 3
  | .invokeSuper _ _ => 3
  | .invokeDirect _ _ => 3
  | .invokeStatic _ _ => 3
  | .invokeInterface _ _ => 3
  | .invokeVirtualRange _ _ _ => 3
  | .invokeStaticRange _ _ _ => 3
  | .unknown _ _ => 1

/-- A word array is a decodable prefix when every instruction's
follow-on words are present (no instruction is truncated). -/
def decodableB : List Nat → Bool
  | [] => true
  | w :: rest =>
    (stepLen (w % 256) - 1 ≤ rest.length) &&
      decodableB (rest.drop (stepLen (w % 256) - 1))
termination_by l => l.length
decreasing_by
  simp [List.length_drop]
  all_goals omega

/-- Each decoded instruction's word length is the cursor advance of
its opcode byte. -/
theorem wordLen_decodeOne (w : Nat) (rest : List Nat) :
    wordLen (decodeOne w rest) = stepLen (w % 256) := by
  unfold decodeOne stepLen
  by_cases h1 : w % 256 = 18
  · rw [if_pos h1, if_pos h1]; rfl
  · rw [if_neg h1, if_neg h1]
    by_cases h2 : w % 256 = 19
    · rw [if_pos h2, if_pos h2]; rfl
    · rw [if_neg h2, if_neg h2]
      by_cases h3 : w % 256 = 20
      · rw [if_pos h3, if_pos h3]; rfl
      · rw [if_neg h3, if_neg h3]
        by_cases h4 : w % 256 = 26
        · rw [if_pos h4, if_pos h4]; rfl
        · rw [if_neg h4, if_neg h4]
          by_cases h5 : w % 256 = 110
          · rw [if_pos h5, if_pos h5]; rfl
          · rw [if_neg h5, if_neg h5]
            by_cases h6 : w % 256 = 111
            · rw [if_pos h6, if_pos h6]; rfl
            · rw [if_neg h6, if_neg h6]
              by_cases h7 : w % 256 = 112
              · rw [if_pos h7, if_pos h7]; rfl
              · rw [if_neg h7, if_neg h7]
                by_cases h8 : w % 256 = 113
                · rw [if_pos h8, if_pos h8]; rfl
                · rw [if_neg h8, if_neg h8]
                  by_cases h9 : w % 256 = 114
                  · rw [if_pos h9, if_pos h9]; rfl
                  · rw [if_neg h9, if_neg h9]
                    by_cases h10 : w % 256 = 116
                    · rw [if_pos h10, if_pos h10]; rfl
                    · rw [if_neg h10, if_neg h10]
                      by_cases h11 : w % 256 = 119
                      · rw [if_pos h11, if_pos h11]; rfl
                      · rw [if_neg h11, if_neg h11]
                        rfl


/-- Every opcode advances the cursor by at least one word. -/
theorem stepLen_pos (op : Nat) : 1 ≤ stepLen op := by
  unfold stepLen
  repeat' split
  all_goals omega

/-- Decoding the empty word array yields no instructions. -/
theorem decode_nil : decode [] = [] := by
  rw [decode]

/-- One decode step: emit the instruction of the first word, then
continue after its follow-on words. -/
theorem decode_cons (w : Nat) (rest : List Nat) :
    decode (w :: rest) =
      decodeOne w rest :: decode (rest.drop (stepLen (w % 256) - 1)) := by
  rw [decode]

/-- The decoded stream always accounts for at least the whole input:
the cursor advances each instruction's full word count even when its
follow-on words were missing, and never reads out of bounds. -/
theorem decode_length_le (bc : List Nat) :
    bc.length ≤ ((decode bc).map wordLen).sum := by
  induction bc using decode.induct with
  | case1 => simp [decode_nil]
  | case2 w rest ih =>
    rw [decode_cons]
    simp only [List.map_cons, List.sum_cons, wordLen_decodeOne]
    have h1 := stepLen_pos (w % 256)
    have h2 : (List.drop (stepLen (w % 256) - 1) rest).length =
        rest.length - (stepLen (w % 256) - 1) := by
      simp [List.length_drop]
    simp only [List.length_cons]
    omega

/-- `word1`/`word2` compute as expected on short lists. -/
theorem word1_nil : word1 [] = 0 := rfl

/-- First follow-on word of a non-empty tail. -/
theorem word1_cons (v : Nat) (t : List Nat) : word1 (v :: t) = v := rfl

/-- Second follow-on word of an empty tail. -/
theorem word2_nil : word2 [] = 0 := rfl

/-- Second follow-on word of a one-element tail. -/
theorem word2_single (x : Nat) : word2 [x] = 0 := rfl

/-- C6: on any decodable prefix (no truncated instruction), the sum of
the decoded instructions' word lengths equals the input code-unit
count. -/
theorem c6_decode_length_preserving (bc : List Nat)
    (h : decodableB bc = true) :
    ((decode bc).map wordLen).sum = bc.length := by
  induction bc using decode.induct with
  | case1 => simp [decode_nil]
  | case2 w rest ih =>
    rw [decodableB] at h
    simp only [Bool.and_eq_true, decide_eq_true_eq] at h
    rw [decode_cons]
    simp only [List.map_cons, List.sum_cons, wordLen_decodeOne, ih h.2,
      List.length_drop, List.length_cons]
    have h1 := stepLen_pos (w % 256)
    omega

/-- Witness for C6: a four-word stream `const/4 v1,#1; invoke-virtual`
is decodable and its decoded word lengths sum to 4. -/
theorem c6_decode_length_preserving_witness :
    decodableB [0x1112, 0x206e, 0, 1] = true ∧
      ((decode [0x1112, 0x206e, 0, 1]).map wordLen).sum =
        [0x1112, 0x206e, 0, 1].length := by
  have h : decodableB [0x1112, 0x206e, 0, 1] = true := by
    simp [decodableB, stepLen]
  exact ⟨h, c6_decode_length_preserving _ h⟩

/-- C2, counterexample: the single-word input whose opcode byte is
`const/16` (a 2-word instruction with its follow-on word missing) is
decoded as a `Const16` instruction with the missing value word read as
0 — not as an `Unknown` instruction carrying the available prefix. -/
theorem c2_truncated_counterexample :
    decode [0x0013] = [Instruction.const16 0 0] ∧
      (decode [0x0013]).countP
        (fun i => match i with | .unknown _ _ => true | _ => false) = 0 := by
  have hd : decode [0x0013] = [Instruction.const16 0 0] := by
    rw [decode_cons]
    simp [decodeOne, stepLen, word1_nil, asI16, decode_nil]
  rw [hd]
  exact ⟨rfl, rfl⟩

/-- C2 (amended): when the first word of a multi-word instruction sits
so close to the end of the array that follow-on words are missing, the
decoder emits the instruction's own typed form with each missing word
read as 0 (for `const`, the 32-bit value is read as 0 unless both
follow-on words are present), and the cursor still advances the full
word count; the decoder never reads past the end of the input, and the
decoded stream accounts for at least the whole input length. -/
theorem c2_truncated_behavior (w : Nat) (hw : w < 65536) :
    (w % 256 = 0x13 → decode [w] = [.const16 (w >>> 8) 0]) ∧
    (w % 256 = 0x14 → decode [w] = [.const (w >>> 8) 0] ∧
      ∀ x, decode [w, x] = [.const (w >>> 8) 0]) ∧
    (w % 256 = 0x1a → decode [w] = [.constString (w >>> 8) 0]) ∧
    (w % 256 = 0x6e →
      decode [w] = [.invokeVirtual (invokeArgs w 0 ((w >>> 12) &&& 0xF)) 0]) ∧
    (w % 256 = 0x6f →
      decode [w] = [.invokeSuper (invokeArgs w 0 ((w >>> 12) &&& 0xF)) 0]) ∧
    (w % 256 = 0x70 →
      decode [w] = [.invokeDirect (invokeArgs w 0 ((w >>> 12) &&& 0xF)) 0]) ∧
    (w % 256 = 0x71 →
      decode [w] = [.invokeStatic (invokeArgs w 0 ((w >>> 12) &&& 0xF)) 0]) ∧
    (w % 256 = 0x72 →
      decode [w] = [.invokeInterface (invokeArgs w 0 ((w >>> 12) &&& 0xF)) 0]) ∧
    (w % 256 = 0x74 → decode [w] = [.invokeVirtualRange 0 (w >>> 8) 0]) ∧
    (w % 256 = 0x77 → decode [w] = [.invokeStaticRange 0 (w >>> 8) 0]) ∧
    ∀ bc : List Nat, bc.length ≤ ((decode bc).map wordLen).sum := by
  have h8 : w >>> 8 < 256 := by
    rw [Nat.shiftRight_eq_div_pow]
    omega
  have hmod : (w >>> 8) % 256 = w >>> 8 := Nat.mod_eq_of_lt h8
  refine ⟨fun hop => ?_, fun hop => ⟨?_, fun x => ?_⟩, fun hop => ?_,
    fun hop => ?_, fun hop => ?_, fun hop => ?_, fun hop => ?_, fun hop => ?_,
    fun hop => ?_, fun hop => ?_, fun bc => decode_length_le bc⟩ <;>
    rw [decode_cons] <;>
    simp [decodeOne, hop, stepLen, word1_nil, word1_cons, word2_nil,
      word2_single, asI16, decode_nil, hmod]

/-- Witness for C2 (amended): concrete truncated `const/16` and `const`
streams, decoded as typed instructions with the missing words as 0. -/
theorem c2_truncated_behavior_witness :
    decode [0x0013] = [Instruction.const16 (0x0013 >>> 8) 0] ∧
      decode [0x0014, 7] = [Instruction.const (0x0014 >>> 8) 0] :=
  ⟨(c2_truncated_behavior 0x0013 (by omega)).1 (by decide),
    ((c2_truncated_behavior 0x0014 (by omega)).2.1 (by decide)).2 7⟩


/-! ## Method signatures and the expression builder
(`src/dex/method_resolver.rs`, `src/dex/expression_builder.rs`) -/

/-- `MethodSignature` from `src/dex/method_resolver.rs`. -/
structure MethodSignature where
  class_name : String
  method_name : String
  parameters : List String
  return_type : String
  full_signature : String
deriving DecidableEq, Repr

/-- `MethodSignature::is_webview_method`. -/
def MethodSignature.is_webview_method (s : MethodSignature) : Bool :=
  strContains s.class_name "WebView" || strContains s.class_name "WebSettings"

/-- `MethodSignature::is_set_javascript_enabled`. -/
def MethodSignature.is_set_javascript_enabled (s : MethodSignature) : Bool :=
  s.method_name == "setJavaScriptEnabled"

/-- The `full_signature` format of `MethodResolver::resolve`:
`format!("{}.{}({}): {}", class, method, params.join(", "), ret)`. -/
def mkFullSignature (cls mth : String) (params : List String) (ret : String) :
    String :=
  cls ++ "." ++ mth ++ "(" ++ String.intercalate ", " params ++ "): " ++ ret

/-- `enum RegisterValue` from `src/dex/expression_builder.rs`. -/
inductive RegisterValue where
  | unknown
  | constInt (v : Int)
  | constString (s : String)
  | methodCall (receiver : RegisterValue) (signature : MethodSignature)
      (args : List RegisterValue)
  | fieldAccess (receiver : RegisterValue) (field_name : String)
      (field_type : String)
  | thisRef
  | parameter (idx : Nat)
deriving Repr

/-- `RegisterValue::format`: Java-like rendering; `0`/`1` print as
booleans, strings are quoted, unknown prints `?`. -/
def RegisterValue.format : RegisterValue → String
  | .unknown => "?"
  | .constInt v => if v = 0 then "false" else if v = 1 then "true" else toString v
  | .constString s => "\"" ++ s ++ "\""
  | .methodCall r sig args =>
    r.format ++ "." ++ sig.method_name ++ "(" ++
      String.intercalate ", " (args.attach.map (fun x => x.1.format)) ++ ")"
  | .fieldAccess r fname _ => r.format ++ "." ++ fname
  | .thisRef => "this"
  | .parameter idx => "param" ++ toString idx
decreasing_by
  · simp
    omega
  · have h := List.sizeOf_lt_of_mem x.2
    simp
    omega
  · simp
    omega

/-- `format` on a method call renders `receiver.method(arg1, arg2, ...)`. -/
theorem format_methodCall (r : RegisterValue) (sig : MethodSignature)
    (args : List RegisterValue) :
    (RegisterValue.methodCall r sig args).format =
      r.format ++ "." ++ sig.method_name ++ "(" ++
        String.intercalate ", " (args.map RegisterValue.format) ++ ")" := by
  rw [RegisterValue.format]
  rw [List.attach_map_val args RegisterValue.format]

/-- `ReconstructedExpression` from `src/dex/expression_builder.rs`. -/
structure ReconstructedExpression where
  expression : String
  value_type : String
  is_method_call : Bool
  method_signature : Option String
deriving DecidableEq, Repr

/-- The register file: `HashMap<u8, RegisterValue>` as a partial map. -/
def Registers := Nat → Option RegisterValue

/-- The fresh builder's empty register file. -/
def emptyRegisters : Registers := fun _ => none

/-- `self.registers.insert(dest, v)`. -/
def insertReg (r : Nat) (v : RegisterValue) (regs : Registers) : Registers :=
  fun x => if x = r then some v else regs x

/-- `ExpressionBuilder::process_method_call`: resolve the method index
(skipping silently on failure), take the first argument register as the
receiver, format the call, and emit it only when significant.  The
register file is not written back (`move-result` is not modelled). -/
def processMethodCall (resolve : Nat → Option MethodSignature)
    (regs : Registers) (args : List Nat) (method_idx : Nat) :
    Option ReconstructedExpression :=
  match resolve method_idx with
  | none => none
  | some signature =>
    match args with
    | [] => none
    | receiver_reg :: argRegs =>
      let receiver := (regs receiver_reg).getD .unknown
      let method_args := argRegs.map (fun reg => (regs reg).getD .unknown)
      let call_value := RegisterValue.methodCall receiver signature method_args
      let expression := call_value.format
      let is_significant := signature.is_set_javascript_enabled ||
        signature.is_webview_method ||
        strContains expression "WebSettings" ||
        strContains expression "WebView"
      if is_significant then
        some { expression := expression
               value_type := signature.return_type
               is_method_call := true
               method_signature := some signature.full_signature }
      else
        none

/-- `ExpressionBuilder::process_instruction`: the register transfer
function plus the optional emitted expression.  The `Err` branch never
fires in the source (every path returns `Ok`), so the `Result` wrapper
is dropped. -/
def processInstruction (resolve : Nat → Option MethodSignature)
    (rstr : Nat → Option String) (regs : Registers) :
    Instruction → Registers × Option ReconstructedExpression
  | .const4 dest value => (insertReg dest (.constInt value) regs, none)
  | .const16 dest value => (insertReg dest (.constInt value) regs, none)
  | .const dest value => (insertReg dest (.constInt value) regs, none)
  | .constString dest string_idx =>
    match rstr string_idx with
    | some s => (insertReg dest (.constString s) regs, none)
    | none => (insertReg dest .unknown regs, none)
  | .invokeVirtual args method_idx =>
    (regs, processMethodCall resolve regs args method_idx)
  | .invokeSuper args method_idx =>
    (regs, processMethodCall resolve regs args method_idx)
  | .invokeDirect args method_idx =>
    (regs, processMethodCall resolve regs args method_idx)
  | .invokeStatic args method_idx =>
    (regs, processMethodCall resolve regs args method_idx)
  | .invokeInterface args method_idx =>
    (regs, processMethodCall resolve regs args method_idx)
  | _ => (regs, none)

/-- The instruction loop of `ExpressionBuilder::process_bytecode`. -/
def processInstructions (resolve : Nat → Option MethodSignature)
    (rstr : Nat → Option String) :
    Registers → List Instruction → List ReconstructedExpression
  | _, [] => []
  | regs, insn :: rest =>
    match processInstruction resolve rstr regs insn with
    | (regs2, some e) => e :: processInstructions resolve rstr regs2 rest
    | (regs2, none) => processInstructions resolve rstr regs2 rest

/-- `ExpressionBuilder::process_bytecode` of a fresh builder: decode
the words, then run the register simulation. -/
def process_bytecode (resolve : Nat → Option MethodSignature)
    (rstr : Nat → Option String) (bytecode : List Nat) :
    List ReconstructedExpression :=
  processInstructions resolve rstr emptyRegisters (decode bytecode)

/-- The resolved signature of
`android.webkit.WebSettings.setJavaScriptEnabled(boolean): void`,
with `full_signature` built the way `MethodResolver::resolve` does. -/
def webSettingsSig : MethodSignature :=
  { class_name := "android.webkit.WebSettings"
    method_name := "setJavaScriptEnabled"
    parameters := ["boolean"]
    return_type := "void"
    full_signature := mkFullSignature "android.webkit.WebSettings"
      "setJavaScriptEnabled" ["boolean"] "void" }


/-- C7: with a fresh builder, the decoded stream `const/4 v1,#1;`
`invoke-virtual {v0,v1}, method@M`, where `M` resolves to
`android.webkit.WebSettings.setJavaScriptEnabled(boolean): void`,
makes `process_bytecode` emit exactly one reconstructed expression; its
text ends with `.setJavaScriptEnabled(true)` and its
`method_signature` is the full resolved signature. -/
theorem c7_websettings_expression (resolve : Nat → Option MethodSignature)
    (rstr : Nat → Option String) (bc : List Nat) (M : Nat)
    (hdec : decode bc = [.const4 1 1, .invokeVirtual [0, 1] M])
    (hres : resolve M = some webSettingsSig) :
    process_bytecode resolve rstr bc =
      [{ expression := "?.setJavaScriptEnabled(true)"
         value_type := "void"
         is_method_call := true
         method_signature := some webSettingsSig.full_signature }] ∧
    strEnds "?.setJavaScriptEnabled(true)" ".setJavaScriptEnabled(true)" = true ∧
    webSettingsSig.full_signature =
      "android.webkit.WebSettings.setJavaScriptEnabled(boolean): void" := by
  refine ⟨?_, rfl, rfl⟩
  rw [process_bytecode, hdec]
  rw [processInstructions]
  simp only [processInstruction]
  rw [processInstructions]
  simp only [processInstruction, processMethodCall, hres]
  simp only [List.map, emptyRegisters, insertReg]
  norm_num
  rw [format_methodCall]
  simp [RegisterValue.format, MethodSignature.is_set_javascript_enabled,
    webSettingsSig, processInstructions]
  rfl

/-- Witness for C7: the concrete word stream
`[0x1112, 0x206e, 3, 0x0001]` decodes to that instruction stream, and a
resolver mapping index 3 to the WebSettings signature produces the
single expected expression. -/
theorem c7_websettings_expression_witness :
    process_bytecode (fun i => if i = 3 then some webSettingsSig else none)
        (fun _ => none) [0x1112, 0x206e, 3, 0x0001] =
      [{ expression := "?.setJavaScriptEnabled(true)"
         value_type := "void"
         is_method_call := true
         method_signature := some webSettingsSig.full_signature }] :=
  (c7_websettings_expression
    (fun i => if i = 3 then some webSettingsSig else none) (fun _ => none)
    [0x1112, 0x206e, 3, 0x0001] 3
    (by
      rw [decode_cons]
      simp only [decodeOne, stepLen]
      norm_num [signExt4, invokeArgs, word1_cons, List.drop]
      rw [decode_cons]
      simp only [decodeOne, stepLen]
      norm_num [invokeArgs, word1, word2, List.range, List.range.loop,
        decode_nil, List.drop]
      decide)
    (by rfl)).1



/-! ## Call graph and bounded BFS (`src/dex/call_graph.rs`) -/

/-- `MethodCall` from `src/dex/call_graph.rs`: one call edge. -/
structure MethodCall where
  caller : String
  callee : String
  call_site : String
deriving DecidableEq, Repr

/-- `CallPath` from `src/dex/call_graph.rs`. -/
structure CallPath where
  methods : List String
  calls : List MethodCall
  length : Nat
deriving DecidableEq, Repr

/-- `CallGraph`: the forward adjacency map is modelled by the list of
all edges in insertion order (each per-caller `Vec` of the `HashMap`
holds its edges in insertion order, so filtering the full list by
caller models `graph.get`); `methods` is the known-methods `HashSet`,
modelled as a list in an arbitrary iteration order. -/
structure CallGraph where
  edges : List MethodCall
  methods : List String
deriving DecidableEq, Repr

/-- `self.graph.get(&current)`: the edges out of `current`. -/
def graphGet (g : CallGraph) (m : String) : List MethodCall :=
  g.edges.filter (fun c => c.caller == m)

/-- One BFS queue entry: `(current_node, path_nodes, path_edges)`. -/
abbrev BfsEntry := String × List String × List MethodCall

/-- The queue entries pushed when expanding a node: one per outgoing
edge whose callee is not already on the path (`// Avoid cycles`). -/
def bfsChildren (g : CallGraph) (current : String) (path : List String)
    (calls : List MethodCall) : List BfsEntry :=
  ((graphGet g current).filter (fun call => !path.contains call.callee)).map
    (fun call => (call.callee, path ++ [call.callee], calls ++ [call]))

/-- All callees appearing in the graph (used only for termination). -/
def calleeFinset (g : CallGraph) : Finset String :=
  (g.edges.map MethodCall.callee).toFinset

/-- Termination potential of one queue entry: exponential in the number
of graph callees not yet on the entry's path. -/
def entryWeight (g : CallGraph) (e : BfsEntry) : Nat :=
  (g.edges.length + 1) ^ (1 + (calleeFinset g \ e.2.1.toFinset).card)

/-- Termination potential of a whole queue. -/
def queueMeasure (g : CallGraph) (q : List BfsEntry) : Nat :=
  (q.map (entryWeight g)).sum

/-- The BFS worklist loop of `CallGraph::find_paths`, with explicit
fuel (each loop iteration pops one entry and consumes one unit; the
calls below always supply at least `queueMeasure` fuel, which
`bfsLoop_fuel` proves sufficient). -/
def bfsLoop (g : CallGraph) (target : String) (maxDepth : Nat) :
    Nat → List BfsEntry → List CallPath
  | 0, _ => []
  | _ + 1, [] => []
  | fuel + 1, (current, path, calls) :: rest =>
    if path.length > maxDepth then
      bfsLoop g target maxDepth fuel rest
    else if strContains current target then
      { methods := path, calls := calls, length := path.length - 1 } ::
        bfsLoop g target maxDepth fuel rest
    else
      bfsLoop g target maxDepth fuel (rest ++ bfsChildren g current path calls)

/-- `CallGraph::find_paths`: BFS from `(source, [source], [])`. -/
def find_paths (g : CallGraph) (source target : String) (maxDepth : Nat) :
    List CallPath :=
  bfsLoop g target maxDepth
    (queueMeasure g [(source, [source], [])]) [(source, [source], [])]

/-- Depth-first reading of the same search: the paths contributed by
one queue entry and all its descendants.  Queue entries never interact
(there is no global visited set), so the BFS result is a permutation of
the entries' contributions (`bfsLoop_perm`). -/
def dfsPaths (g : CallGraph) (target : String) (maxDepth : Nat) :
    Nat → BfsEntry → List CallPath
  | 0, _ => []
  | fuel + 1, (current, path, calls) =>
    if path.length > maxDepth then []
    else if strContains current target then
      [{ methods := path, calls := calls, length := path.length - 1 }]
    else
      (bfsChildren g current path calls).flatMap
        (fun e => dfsPaths g target maxDepth fuel e)

/-- The per-entry contribution at its canonical (sufficient) fuel. -/
def pathsFrom (g : CallGraph) (target : String) (maxDepth : Nat)
    (e : BfsEntry) : List CallPath :=
  dfsPaths g target maxDepth (entryWeight g e) e

/-- Entry weights are positive. -/
theorem entryWeight_pos (g : CallGraph) (e : BfsEntry) :
    1 ≤ entryWeight g e := by
  unfold entryWeight
  exact Nat.one_le_pow _ _ (by omega)

/-- Queue measure of a cons. -/
theorem queueMeasure_cons (g : CallGraph) (e : BfsEntry) (q : List BfsEntry) :
    queueMeasure g (e :: q) = entryWeight g e + queueMeasure g q := by
  simp [queueMeasure]

/-- Queue measure of an append. -/
theorem queueMeasure_append (g : CallGraph) (q1 q2 : List BfsEntry) :
    queueMeasure g (q1 ++ q2) = queueMeasure g q1 + queueMeasure g q2 := by
  simp [queueMeasure]

/-- Sum bound for mapped lists. -/
theorem sumMap_le {α : Type} (l : List α) (f : α → Nat) (M : Nat)
    (h : ∀ x ∈ l, f x ≤ M) : (l.map f).sum ≤ l.length * M := by
  induction l with
  | nil => simp
  | cons a t ih =>
    simp only [List.map_cons, List.sum_cons, List.length_cons]
    have h1 := h a (by simp)
    have h2 := ih (fun x hx => h x (by simp [hx]))
    nlinarith

/-- Each child entry weighs exactly one power of the base less than its
parent. -/
theorem child_entryWeight (g : CallGraph) (current : String)
    (path : List String) (calls : List MethodCall) (e : BfsEntry)
    (he : e ∈ bfsChildren g current path calls) :
    1 ≤ (calleeFinset g \ path.toFinset).card ∧
      entryWeight g e =
        (g.edges.length + 1) ^ ((calleeFinset g \ path.toFinset).card) := by
  unfold bfsChildren at he
  simp only [List.mem_map, List.mem_filter] at he
  obtain ⟨call, ⟨hcg, hnc⟩, rfl⟩ := he
  have hcallee : call.callee ∈ calleeFinset g := by
    unfold calleeFinset
    unfold graphGet at hcg
    simp only [List.mem_filter] at hcg
    simp only [List.mem_toFinset, List.mem_map]
    exact ⟨call, hcg.1, rfl⟩
  have hnotpath : call.callee ∉ path.toFinset := by
    simp only [List.mem_toFinset]
    simp only [Bool.not_eq_eq_eq_not, Bool.not_true] at hnc
    simpa using hnc
  have hdiff : call.callee ∈ calleeFinset g \ path.toFinset :=
    Finset.mem_sdiff.mpr ⟨hcallee, hnotpath⟩
  have hcard : 1 ≤ (calleeFinset g \ path.toFinset).card :=
    Finset.card_pos.mpr ⟨call.callee, hdiff⟩
  refine ⟨hcard, ?_⟩
  unfold entryWeight
  congr 1
  have hins : (path ++ [call.callee]).toFinset = insert call.callee path.toFinset := by
    ext x
    simp [or_comm]
  rw [hins]
  have herase : calleeFinset g \ insert call.callee path.toFinset =
      (calleeFinset g \ path.toFinset).erase call.callee := by
    ext x
    simp only [Finset.mem_sdiff, Finset.mem_insert, Finset.mem_erase]
    tauto
  rw [herase, Finset.card_erase_of_mem hdiff]
  omega

/-- The children of an entry weigh strictly less than the entry. -/
theorem children_measure_lt (g : CallGraph) (current : String)
    (path : List String) (calls : List MethodCall) :
    queueMeasure g (bfsChildren g current path calls) <
      entryWeight g (current, path, calls) := by
  by_cases hc : bfsChildren g current path calls = []
  · rw [hc]
    unfold queueMeasure
    simp only [List.map_nil, List.sum_nil]
    exact entryWeight_pos g _
  · obtain ⟨e0, hne⟩ := List.exists_mem_of_ne_nil _ hc
    obtain ⟨hcard, -⟩ := child_entryWeight g current path calls e0 hne
    have hlen : (bfsChildren g current path calls).length ≤ g.edges.length := by
      unfold bfsChildren
      calc (((graphGet g current).filter _).map _).length
          = ((graphGet g current).filter _).length := List.length_map ..
        _ ≤ (graphGet g current).length := List.length_filter_le ..
        _ ≤ g.edges.length := List.length_filter_le ..
    have hbound : ∀ e ∈ bfsChildren g current path calls,
        entryWeight g e =
          (g.edges.length + 1) ^ ((calleeFinset g \ path.toFinset).card) :=
      fun e he => (child_entryWeight g current path calls e he).2
    set B := g.edges.length + 1 with hB
    set n := (calleeFinset g \ path.toFinset).card with hn
    have hsum : queueMeasure g (bfsChildren g current path calls) ≤
        (bfsChildren g current path calls).length * B ^ n := by
      unfold queueMeasure
      exact sumMap_le _ _ _ (fun x hx => le_of_eq (hbound x hx))
    have hW : entryWeight g (current, path, calls) = B ^ (1 + n) := rfl
    rw [hW]
    have hBn : 0 < B ^ n := Nat.pos_pow_of_pos n (by omega)
    calc queueMeasure g (bfsChildren g current path calls)
        ≤ (bfsChildren g current path calls).length * B ^ n := hsum
      _ ≤ g.edges.length * B ^ n := Nat.mul_le_mul_right _ hlen
      _ < B * B ^ n := by
          have hlt : g.edges.length < B := by omega
          exact (Nat.mul_lt_mul_right hBn).mpr hlt
      _ = B ^ (1 + n) := by
          rw [Nat.pow_add, Nat.pow_one]

/-- `bfsLoop` on the empty queue yields nothing, at any fuel. -/
theorem bfsLoop_nil (g : CallGraph) (target : String) (maxDepth : Nat) :
    ∀ fuel, bfsLoop g target maxDepth fuel [] = [] := by
  intro fuel
  cases fuel <;> rw [bfsLoop]



/-- A member's weight is at most the queue measure. -/
theorem entryWeight_le_queueMeasure (g : CallGraph) (e : BfsEntry)
    (q : List BfsEntry) (he : e ∈ q) :
    entryWeight g e ≤ queueMeasure g q := by
  unfold queueMeasure
  exact List.single_le_sum (fun x _ => Nat.zero_le x) _
    (List.mem_map_of_mem _ he)

/-- `flatMap` respects pointwise equality on members. -/
theorem flatMap_congr_mem {α β : Type} (l : List α) (f h : α → List β)
    (hfh : ∀ x ∈ l, f x = h x) : l.flatMap f = l.flatMap h := by
  induction l with
  | nil => rfl
  | cons a t ih => simp_all [List.flatMap_cons]

/-- The BFS loop returns the same result under any sufficient fuel. -/
theorem bfsLoop_fuel (g : CallGraph) (target : String) (maxDepth : Nat) :
    ∀ f1 f2 q, queueMeasure g q ≤ f1 → queueMeasure g q ≤ f2 →
      bfsLoop g target maxDepth f1 q = bfsLoop g target maxDepth f2 q := by
  intro f1
  induction f1 using Nat.strong_induction_on with
  | _ f1 ih =>
    intro f2 q h1 h2
    match q with
    | [] => rw [bfsLoop_nil, bfsLoop_nil]
    | (current, path, calls) :: rest =>
      have hw := entryWeight_pos g (current, path, calls)
      rw [queueMeasure_cons] at h1 h2
      obtain ⟨k1, rfl⟩ : ∃ k, f1 = k + 1 := ⟨f1 - 1, by omega⟩
      obtain ⟨k2, rfl⟩ : ∃ k, f2 = k + 1 := ⟨f2 - 1, by omega⟩
      rw [bfsLoop, bfsLoop]
      by_cases hdep : path.length > maxDepth
      · rw [if_pos hdep, if_pos hdep]
        exact ih k1 (by omega) k2 rest (by omega) (by omega)
      · rw [if_neg hdep, if_neg hdep]
        by_cases htgt : strContains current target = true
        · rw [if_pos htgt, if_pos htgt]
          rw [ih k1 (by omega) k2 rest (by omega) (by omega)]
        · rw [if_neg htgt, if_neg htgt]
          have hch := children_measure_lt g current path calls
          have hm1 : queueMeasure g
              (rest ++ bfsChildren g current path calls) ≤ k1 := by
            rw [queueMeasure_append]
            omega
          have hm2 : queueMeasure g
              (rest ++ bfsChildren g current path calls) ≤ k2 := by
            rw [queueMeasure_append]
            omega
          exact ih k1 (by omega) k2 _ hm1 hm2

/-- The per-entry search returns the same result under any sufficient
fuel; in particular it equals `pathsFrom`. -/
theorem dfsPaths_fuel (g : CallGraph) (target : String) (maxDepth : Nat) :
    ∀ f e, entryWeight g e ≤ f →
      dfsPaths g target maxDepth f e = pathsFrom g target maxDepth e := by
  intro f
  induction f using Nat.strong_induction_on with
  | _ f ih =>
    intro e he
    match e with
    | (current, path, calls) =>
      have hw := entryWeight_pos g (current, path, calls)
      obtain ⟨k, rfl⟩ : ∃ k, f = k + 1 := ⟨f - 1, by omega⟩
      obtain ⟨m, hm⟩ : ∃ m, entryWeight g (current, path, calls) = m + 1 :=
        ⟨entryWeight g (current, path, calls) - 1, by omega⟩
      rw [pathsFrom, hm, dfsPaths, dfsPaths]
      by_cases hdep : path.length > maxDepth
      · rw [if_pos hdep, if_pos hdep]
      · rw [if_neg hdep, if_neg hdep]
        by_cases htgt : strContains current target = true
        · rw [if_pos htgt, if_pos htgt]
        · rw [if_neg htgt, if_neg htgt]
          apply flatMap_congr_mem
          intro c hcmem
          have hcw : entryWeight g c ≤ m := by
            have h1 := entryWeight_le_queueMeasure g c _ hcmem
            have h2 := children_measure_lt g current path calls
            omega
          rw [ih k (by omega) c (by omega), ih m (by omega) c hcw]

/-- The BFS output is a permutation of the independent contributions of
the queue entries: entries never interact, the queue only reorders. -/
theorem bfsLoop_perm (g : CallGraph) (target : String) (maxDepth : Nat) :
    ∀ f q, queueMeasure g q ≤ f →
      (bfsLoop g target maxDepth f q).Perm
        (q.flatMap (pathsFrom g target maxDepth)) := by
  intro f
  induction f using Nat.strong_induction_on with
  | _ f ih =>
    intro q hq
    match q with
    | [] =>
      rw [bfsLoop_nil]
      simp
    | (current, path, calls) :: rest =>
      have hw := entryWeight_pos g (current, path, calls)
      rw [queueMeasure_cons] at hq
      obtain ⟨k, rfl⟩ : ∃ k, f = k + 1 := ⟨f - 1, by omega⟩
      obtain ⟨m, hm⟩ : ∃ m, entryWeight g (current, path, calls) = m + 1 :=
        ⟨entryWeight g (current, path, calls) - 1, by omega⟩
      have hfrom : pathsFrom g target maxDepth (current, path, calls) =
          dfsPaths g target maxDepth (m + 1) (current, path, calls) := by
        rw [pathsFrom, hm]
      rw [bfsLoop, List.flatMap_cons, hfrom, dfsPaths]
      by_cases hdep : path.length > maxDepth
      · rw [if_pos hdep, if_pos hdep]
        simpa using ih k (by omega) rest (by omega)
      · rw [if_neg hdep, if_neg hdep]
        by_cases htgt : strContains current target = true
        · rw [if_pos htgt, if_pos htgt]
          simp only [List.singleton_append]
          exact List.Perm.cons _ (ih k (by omega) rest (by omega))
        · rw [if_neg htgt, if_neg htgt]
          have hch := children_measure_lt g current path calls
          have hmq : queueMeasure g
              (rest ++ bfsChildren g current path calls) ≤ k := by
            rw [queueMeasure_append]
            omega
          have hperm := ih k (by omega) _ hmq
          rw [List.flatMap_append] at hperm
          have hcong : (bfsChildren g current path calls).flatMap
              (pathsFrom g target maxDepth) =
              (bfsChildren g current path calls).flatMap
                (fun e => dfsPaths g target maxDepth m e) := by
            apply flatMap_congr_mem
            intro c hcmem
            have hcw : entryWeight g c ≤ m := by
              have h1 := entryWeight_le_queueMeasure g c _ hcmem
              omega
            rw [dfsPaths_fuel g target maxDepth m c hcw]
          rw [← hcong]
          exact hperm.trans List.perm_append_comm



/-- `find_paths` is the contribution of the initial entry alone. -/
theorem find_paths_perm (g : CallGraph) (source target : String) (d : Nat) :
    (find_paths g source target d).Perm
      (pathsFrom g target d (source, [source], [])) := by
  rw [find_paths]
  have h := bfsLoop_perm g target d
    (queueMeasure g [(source, [source], [])]) [(source, [source], [])]
    (le_refl _)
  simpa using h

/-- Every path produced from an entry with duplicate-free path nodes
has duplicate-free methods: children only extend with absent callees. -/
theorem dfsPaths_nodup (g : CallGraph) (target : String) (d : Nat) :
    ∀ f current path calls, path.Nodup →
      ∀ p ∈ dfsPaths g target d f (current, path, calls),
        p.methods.Nodup := by
  intro f
  induction f using Nat.strong_induction_on with
  | _ f ih =>
    intro current path calls hnd p hp
    match f with
    | 0 =>
      rw [dfsPaths] at hp
      simp at hp
    | k + 1 =>
      rw [dfsPaths] at hp
      by_cases hdep : path.length > d
      · rw [if_pos hdep] at hp
        simp at hp
      · rw [if_neg hdep] at hp
        by_cases htgt : strContains current target = true
        · rw [if_pos htgt] at hp
          simp only [List.mem_singleton] at hp
          subst hp
          exact hnd
        · rw [if_neg htgt] at hp
          rw [List.mem_flatMap] at hp
          obtain ⟨c, hc, hpc⟩ := hp
          unfold bfsChildren at hc
          simp only [List.mem_map, List.mem_filter] at hc
          obtain ⟨call, ⟨hcg, hnc⟩, rfl⟩ := hc
          have hnotin : call.callee ∉ path := by
            simp only [Bool.not_eq_eq_eq_not, Bool.not_true] at hnc
            simpa using hnc
          have hnd2 : (path ++ [call.callee]).Nodup := by
            simp [List.nodup_append, hnd, hnotin]
          exact ih k (by omega) call.callee (path ++ [call.callee])
            (calls ++ [call]) hnd2 p hpc

/-- C4: every path returned by `find_paths` has pairwise-distinct
method nodes — a callee already on the path is never pushed again. -/
theorem c4_find_paths_nodup (g : CallGraph) (source target : String)
    (d : Nat) (p : CallPath) (hp : p ∈ find_paths g source target d) :
    p.methods.Nodup := by
  have hperm := find_paths_perm g source target d
  have hp2 : p ∈ pathsFrom g target d (source, [source], []) :=
    hperm.mem_iff.mp hp
  rw [pathsFrom] at hp2
  exact dfsPaths_nodup g target d _ source [source] [] (by simp) p hp2

/-- A one-edge graph used by the concrete witnesses below. -/
def oneEdgeGraph : CallGraph :=
  { edges := [{ caller := "a", callee := "b", call_site := "s" }]
    methods := ["a", "b"] }

/-- Witness for C4: in the one-edge graph, the concrete returned path
`a → b` has distinct nodes. -/
theorem c4_find_paths_nodup_witness :
    ({ methods := ["a", "b"]
       calls := [{ caller := "a", callee := "b", call_site := "s" }]
       length := 1 } : CallPath).methods.Nodup :=
  c4_find_paths_nodup oneEdgeGraph "a" "b" 2 _ (by decide)

/-- Raising the depth bound loses no path from any entry's search. -/
theorem dfsPaths_mono (g : CallGraph) (target : String) (d1 d2 : Nat)
    (hd : d1 ≤ d2) :
    ∀ f e p, p ∈ dfsPaths g target d1 f e →
      p ∈ dfsPaths g target d2 f e := by
  intro f
  induction f using Nat.strong_induction_on with
  | _ f ih =>
    intro e p hp
    match f, e with
    | 0, e =>
      rw [dfsPaths] at hp
      simp at hp
    | k + 1, (current, path, calls) =>
      rw [dfsPaths] at hp
      rw [dfsPaths]
      by_cases hdep1 : path.length > d1
      · rw [if_pos hdep1] at hp
        simp at hp
      · rw [if_neg hdep1] at hp
        rw [if_neg (by omega)]
        by_cases htgt : strContains current target = true
        · rw [if_pos htgt] at hp
          rw [if_pos htgt]
          exact hp
        · rw [if_neg htgt] at hp
          rw [if_neg htgt]
          rw [List.mem_flatMap] at hp ⊢
          obtain ⟨c, hc, hpc⟩ := hp
          exact ⟨c, hc, ih k (by omega) c p hpc⟩

/-- C10: when the source string itself contains the target as a
substring and the depth bound admits the one-node path, `find_paths`
returns exactly the single path `[source]` of length 0, for every
graph — no edge is consulted and the source need not be a known
method; with `max_depth = 0` even that path is rejected and the result
is empty. -/
theorem c10_source_substring_hit (g : CallGraph) (source target : String)
    (d : Nat) :
    (1 ≤ d → strContains source target = true →
      find_paths g source target d =
        [{ methods := [source], calls := [], length := 0 }]) ∧
    find_paths g source target 0 = [] := by
  have hw := entryWeight_pos g (source, [source], [])
  have hq : queueMeasure g [(source, [source], [])] =
      entryWeight g (source, [source], []) := by
    rw [queueMeasure_cons]
    simp [queueMeasure]
  constructor
  · intro hd htgt
    rw [find_paths]
    obtain ⟨k, hk⟩ : ∃ k, queueMeasure g [(source, [source], [])] = k + 1 :=
      ⟨queueMeasure g [(source, [source], [])] - 1, by omega⟩
    rw [hk, bfsLoop]
    rw [if_neg (by simp; omega), if_pos htgt, bfsLoop_nil]
    rfl
  · rw [find_paths]
    obtain ⟨k, hk⟩ : ∃ k, queueMeasure g [(source, [source], [])] = k + 1 :=
      ⟨queueMeasure g [(source, [source], [])] - 1, by omega⟩
    rw [hk, bfsLoop]
    rw [if_pos (by simp), bfsLoop_nil]

/-- Witness for C10 in the empty graph: `"ab"` contains `"a"`. -/
theorem c10_source_substring_hit_witness :
    find_paths { edges := [], methods := [] } "ab" "a" 1 =
        [{ methods := ["ab"], calls := [], length := 0 }] ∧
      find_paths { edges := [], methods := [] } "ab" "a" 0 = [] :=
  ⟨(c10_source_substring_hit { edges := [], methods := [] } "ab" "a" 1).1
      (by omega) (by decide),
    (c10_source_substring_hit { edges := [], methods := [] } "ab" "a" 1).2⟩



/-! ## Entry points and the flow analyzer
(`src/dex/entry_point_analyzer.rs`, `src/dex/data_flow_analyzer.rs`) -/

/-- `ComponentType` from `src/dex/entry_point_analyzer.rs`. -/
inductive ComponentType where
  | activity
  | service
  | broadcastReceiver
  | contentProvider
deriving DecidableEq, Repr

/-- The `format!("{:?}", component_type)` rendering used by
`find_flows_to` (Rust derive-Debug names). -/
def ComponentType.fmt : ComponentType → String
  | .activity => "Activity"
  | .service => "Service"
  | .broadcastReceiver => "BroadcastReceiver"
  | .contentProvider => "ContentProvider"

/-- `EntryPoint` from `src/dex/entry_point_analyzer.rs`. -/
structure EntryPoint where
  component_type : ComponentType
  class_name : String
  intent_filters : List ActivityIntentFilter
  is_deeplink_handler : Bool
  class_found : Bool
deriving DecidableEq, Repr

/-- `Flow` from `src/dex/data_flow_analyzer.rs`. -/
structure Flow where
  entry_point : String
  component_type : String
  sink_method : String
  paths : List CallPath
  is_deeplink_handler : Bool
  min_path_length : Nat
  path_count : Nat
deriving DecidableEq, Repr

/-- `DataFlowAnalyzer::find_sink_methods`: the graph methods matching
each pattern, concatenated in pattern order (`find_methods_matching`
iterates the `HashSet`, modelled by the order of `methods`). -/
def find_sink_methods (g : CallGraph) (patterns : List String) :
    List String :=
  patterns.flatMap (fun pat => g.methods.filter (fun m => strContains m pat))

/-- The lifecycle roots tried per entry point in `find_flows_to`. -/
def lifecycleMethods : List String :=
  ["onCreate", "onStart", "onResume", "onNewIntent"]

/-- Rust `iter().min().unwrap_or(0)` over a list of path lengths. -/
def minOrZero : List Nat → Nat
  | [] => 0
  | [x] => x
  | x :: y :: t => Nat.min x (minOrZero (y :: t))

/-- The `Flow` record pushed by `find_flows_to` for one
(entry point, lifecycle, sink) combination with non-empty paths. -/
def mkFlow (ep : EntryPoint) (sink : String) (paths : List CallPath) :
    Flow :=
  { entry_point := ep.class_name
    component_type := ep.component_type.fmt
    sink_method := sink
    paths := paths
    is_deeplink_handler := ep.is_deeplink_handler
    min_path_length := minOrZero (paths.map CallPath.length)
    path_count := paths.length }

/-- `DataFlowAnalyzer::find_flows_to`: for every entry point (the
analyzer's `analyze()` output, taken here as the `eps` argument), for
each of the four lifecycle roots, for every matched sink method, run
`find_paths` and push a `Flow` whenever the path set is non-empty. -/
def find_flows_to (eps : List EntryPoint) (g : CallGraph)
    (sink_patterns : List String) (max_depth : Nat) : List Flow :=
  if (find_sink_methods g sink_patterns).isEmpty then []
  else
    eps.flatMap (fun ep =>
      lifecycleMethods.flatMap (fun lifecycle =>
        (find_sink_methods g sink_patterns).filterMap (fun sink =>
          if (find_paths g (ep.class_name ++ "." ++ lifecycle)
              sink max_depth).isEmpty
          then none
          else some (mkFlow ep sink
            (find_paths g (ep.class_name ++ "." ++ lifecycle)
              sink max_depth)))))

/-- Membership in `find_flows_to`, unfolded to its generating
(entry point, lifecycle, sink) triple. -/
theorem mem_find_flows_to {eps : List EntryPoint} {g : CallGraph}
    {pats : List String} {d : Nat} {f : Flow} :
    f ∈ find_flows_to eps g pats d ↔
      ((find_sink_methods g pats).isEmpty = false ∧
        ∃ ep ∈ eps, ∃ lc ∈ lifecycleMethods, ∃ s ∈ find_sink_methods g pats,
          find_paths g (ep.class_name ++ "." ++ lc) s d ≠ [] ∧
          f = mkFlow ep s (find_paths g (ep.class_name ++ "." ++ lc) s d)) := by
  unfold find_flows_to
  by_cases hs : (find_sink_methods g pats).isEmpty
  · simp [hs]
  · simp only [Bool.not_eq_true] at hs
    simp only [hs, Bool.false_eq_true, if_false, List.mem_flatMap,
      List.mem_filterMap, true_and]
    constructor
    · rintro ⟨ep, hep, lc, hlc, s, hsm, hif⟩
      split at hif
      · simp at hif
      · rename_i hne
        simp only [Option.some_inj] at hif
        refine ⟨ep, hep, lc, hlc, s, hsm, ?_, hif.symm⟩
        simpa [List.isEmpty_iff] using hne
    · rintro ⟨ep, hep, lc, hlc, s, hsm, hne, rfl⟩
      refine ⟨ep, hep, lc, hlc, s, hsm, ?_⟩
      rw [if_neg (by simpa [List.isEmpty_iff] using hne)]

/-- Raising the depth bound keeps every returned path (helper shared by
the monotonicity results). -/
theorem find_paths_mono (g : CallGraph) (source target : String)
    (d1 d2 : Nat) (hd : d1 ≤ d2) (p : CallPath)
    (hp : p ∈ find_paths g source target d1) :
    p ∈ find_paths g source target d2 := by
  have h1 := (find_paths_perm g source target d1).mem_iff.mp hp
  rw [pathsFrom] at h1
  have h2 := dfsPaths_mono g target d1 d2 hd _ _ p h1
  refine (find_paths_perm g source target d2).mem_iff.mpr ?_
  rw [pathsFrom]
  exact h2



/-- C5: with `d1 ≤ d2`, every path returned at depth `d1` is returned
at depth `d2`; consequently every flow found at depth `d1` persists at
depth `d2` with the same entry point and sink, and with a path set
containing every old path. -/
theorem c5_depth_monotone (g : CallGraph) (source target : String)
    (d1 d2 : Nat) (hd : d1 ≤ d2) :
    (∀ p ∈ find_paths g source target d1, p ∈ find_paths g source target d2) ∧
    (∀ (eps : List EntryPoint) (pats : List String),
      ∀ fl ∈ find_flows_to eps g pats d1,
        ∃ fl2 ∈ find_flows_to eps g pats d2,
          fl2.entry_point = fl.entry_point ∧
          fl2.sink_method = fl.sink_method ∧
          ∀ p ∈ fl.paths, p ∈ fl2.paths) := by
  constructor
  · intro p hp
    exact find_paths_mono g source target d1 d2 hd p hp
  · intro eps pats fl hfl
    rw [mem_find_flows_to] at hfl
    obtain ⟨hne, ep, hep, lc, hlc, s, hsm, hpne, rfl⟩ := hfl
    have hsub : ∀ p ∈ find_paths g (ep.class_name ++ "." ++ lc) s d1,
        p ∈ find_paths g (ep.class_name ++ "." ++ lc) s d2 :=
      fun p hp => find_paths_mono g _ s d1 d2 hd p hp
    have hp2ne : find_paths g (ep.class_name ++ "." ++ lc) s d2 ≠ [] := by
      obtain ⟨p, hp⟩ := List.exists_mem_of_ne_nil _ hpne
      exact List.ne_nil_of_mem (hsub p hp)
    refine ⟨mkFlow ep s (find_paths g (ep.class_name ++ "." ++ lc) s d2),
      ?_, rfl, rfl, fun p hp => hsub p hp⟩
    rw [mem_find_flows_to]
    exact ⟨hne, ep, hep, lc, hlc, s, hsm, hp2ne, rfl⟩

/-- Witness for C5: the one-edge graph's depth-2 path survives at
depth 3. -/
theorem c5_depth_monotone_witness :
    ({ methods := ["a", "b"]
       calls := [{ caller := "a", callee := "b", call_site := "s" }]
       length := 1 } : CallPath) ∈ find_paths oneEdgeGraph "a" "b" 3 :=
  (c5_depth_monotone oneEdgeGraph "a" "b" 2 3 (by omega)).1 _ (by decide)

/-- `minOrZero` of a non-empty list is one of its members. -/
theorem minOrZero_mem : ∀ l : List Nat, l ≠ [] → minOrZero l ∈ l := by
  intro l
  induction l using minOrZero.induct with
  | case1 =>
    intro h
    simp at h
  | case2 x =>
    intro h
    simp [minOrZero]
  | case3 x y t ih =>
    intro h
    rw [minOrZero]
    have hm := ih (by simp)
    have hor : Nat.min x (minOrZero (y :: t)) = x ∨
        Nat.min x (minOrZero (y :: t)) = minOrZero (y :: t) := by
      rcases Nat.le_total x (minOrZero (y :: t)) with hle | hle
      · exact Or.inl (by simp [Nat.min, hle])
      · exact Or.inr (by simp [Nat.min, hle])
    rcases hor with heq | heq <;> rw [heq]
    · simp
    · simp [hm]

/-- `minOrZero` bounds every member from below. -/
theorem minOrZero_le : ∀ (l : List Nat) (x : Nat), x ∈ l → minOrZero l ≤ x := by
  intro l
  induction l using minOrZero.induct with
  | case1 =>
    intro x hx
    simp at hx
  | case2 a =>
    intro x hx
    simp at hx
    simp [minOrZero, hx]
  | case3 a y t ih =>
    intro x hx
    rw [minOrZero]
    rcases List.mem_cons.mp hx with rfl | hx2
    · exact Nat.min_le_left _ _
    · exact le_trans (Nat.min_le_right _ _) (ih x hx2)

/-- Length of a `flatMap`. -/
theorem length_flatMap {α β : Type} (l : List α) (f : α → List β) :
    (l.flatMap f).length = (l.map (fun a => (f a).length)).sum := by
  induction l with
  | nil => rfl
  | cons a t ih => simp [List.flatMap_cons, ih]

/-- Length of an if-guarded `filterMap` is the count of passing
elements. -/
theorem length_filterMap_if {α β : Type} (l : List α) (c : α → Bool)
    (h : α → β) :
    (l.filterMap (fun s => if c s then none else some (h s))).length =
      (l.filter (fun s => !c s)).length := by
  induction l with
  | nil => rfl
  | cons a t ih =>
    by_cases hc : c a
    · simp [List.filterMap_cons, List.filter_cons, hc, ih]
    · simp [List.filterMap_cons, List.filter_cons, hc, ih]

/-- Concrete counterexample data for C3: one activity `A` whose
`onCreate` and `onStart` both reach the same sink `X.snk`. -/
def c3eps : List EntryPoint :=
  [{ component_type := .activity
     class_name := "A"
     intent_filters := []
     is_deeplink_handler := false
     class_found := false }]

/-- Counterexample call graph for C3. -/
def c3graph : CallGraph :=
  { edges := [{ caller := "A.onCreate", callee := "X.snk", call_site := "s1" },
              { caller := "A.onStart", callee := "X.snk", call_site := "s2" }]
    methods := ["A.onCreate", "A.onStart", "X.snk"] }

/-- C3, counterexample: `find_flows_to` yields TWO flows for the single
(entry point `A`, sink `X.snk`) pair — one per lifecycle root reaching
the sink — so a pair does occur in more than one `Flow`. -/
theorem c3_pair_counterexample :
    ((find_flows_to c3eps c3graph ["X.snk"] 10).countP
      (fun f => f.entry_point == "A" && f.sink_method == "X.snk")) = 2 := by
  decide

/-- C3 (amended): `find_flows_to` yields exactly one `Flow` per
(entry point, lifecycle root, sink) triple whose path set is non-empty
— so one (entry point, sink) pair can occur in up to four flows, one
per lifecycle root (and once more per duplicated sink match); each
`Flow` carries a non-empty path set, `path_count` equal to the number
of its paths, and `min_path_length` equal to the length of a shortest
path among them. -/
theorem c3_flows_per_triple (eps : List EntryPoint) (g : CallGraph)
    (pats : List String) (d : Nat) :
    (∀ f ∈ find_flows_to eps g pats d,
      f.paths ≠ [] ∧ f.path_count = f.paths.length ∧
      f.min_path_length ∈ f.paths.map CallPath.length ∧
      ∀ p ∈ f.paths, f.min_path_length ≤ p.length) ∧
    (find_flows_to eps g pats d).length =
      (if (find_sink_methods g pats).isEmpty then 0
       else (eps.map (fun ep =>
         (lifecycleMethods.map (fun lc =>
           ((find_sink_methods g pats).filter (fun s =>
             !(find_paths g (ep.class_name ++ "." ++ lc) s d).isEmpty)).length)).sum)).sum) := by
  constructor
  · intro f hf
    rw [mem_find_flows_to] at hf
    obtain ⟨hne, ep, hep, lc, hlc, s, hsm, hpne, rfl⟩ := hf
    refine ⟨hpne, rfl, ?_, ?_⟩
    · exact minOrZero_mem _ (by simpa using hpne)
    · intro p hp
      exact minOrZero_le _ _ (List.mem_map_of_mem CallPath.length hp)
  · unfold find_flows_to
    by_cases hs : (find_sink_methods g pats).isEmpty
    · simp [hs]
    · simp only [Bool.not_eq_true] at hs
      simp only [hs, Bool.false_eq_true, if_false]
      rw [length_flatMap]
      congr 1
      apply List.map_congr_left
      intro ep _
      rw [length_flatMap]
      congr 1
      apply List.map_congr_left
      intro lc _
      rw [length_filterMap_if]

/-- Witness for C3 (amended): applied to the counterexample data
(`decide` evaluates the two flows and their fields). -/
theorem c3_flows_per_triple_witness :
    (find_flows_to c3eps c3graph ["X.snk"] 10).length =
      (if (find_sink_methods c3graph ["X.snk"]).isEmpty then 0
       else (c3eps.map (fun ep =>
         (lifecycleMethods.map (fun lc =>
           ((find_sink_methods c3graph ["X.snk"]).filter (fun s =>
             !(find_paths c3graph (ep.class_name ++ "." ++ lc) s 10).isEmpty)).length)).sum)).sum) :=
  (c3_flows_per_triple c3eps c3graph ["X.snk"] 10).2


end Playfast



